import Mathlib

/-!
Shallow embedding of the Kismet AIS decode pipeline
(src/ais_message_parser.cc, src/ais_message_parser.h, src/phy_ais.cc).

Bit buffers (`std::vector<bool> payload_bits`) are `List Bool`; strings are
`List Char`; machine integers are `Nat`/`Int` with explicit reductions
modulo `2 ^ 64` or `2 ^ 32` where the C++ width matters.
-/

namespace AISParser

/-- MSB-first value of a bit list: the accumulator loop
`val <<= 1; if bit then val |= 1` of `AISMessage::get_uint`
(ais_message_parser.cc lines 79-85).  `num_bits <= 64` is checked by the
caller, so the `uint64_t` accumulator never exceeds `2 ^ 64` and the plain
`Nat` fold is exact. -/
def msbVal (l : List Bool) : Nat :=
  l.foldl (fun a b => 2 * a + b.toNat) 0

/-- `AISMessage::get_uint` (ais_message_parser.cc lines 70-87).
Out-of-range or too-wide requests log and return 0 (the `throw` in the
source is commented out).  In range, the loop reads bits
`start_bit .. start_bit + num_bits - 1` MSB-first, which is `msbVal` of
that slice. -/
def get_uint (bits : List Bool) (start_bit num_bits : Nat) : Nat :=
  if start_bit + num_bits > bits.length ∨ num_bits > 64 then 0
  else msbVal ((bits.drop start_bit).take num_bits)

/-- Reinterpretation of a `uint64_t` bit pattern as `int64_t`
(two's complement), used for the C++ conversions in `get_int`. -/
def toInt64 (n : Nat) : Int :=
  if n < 2 ^ 63 then (n : Int) else (n : Int) - 2 ^ 64

/-- `AISMessage::get_int` (ais_message_parser.cc lines 89-109).
Out-of-range or too-wide requests return 0; `num_bits == 0` returns 0.
Otherwise it reads unsigned and, when the sign bit `num_bits - 1` is set,
returns `static_cast<int64_t>(u_val) - (1ULL << num_bits)`: the mixed
`int64_t`/`uint64_t` subtraction is performed modulo `2 ^ 64` and the
result converted back to `int64_t`, which `toInt64` of the modular
difference models (the shift `1ULL << num_bits` is modelled as
`2 ^ num_bits % 2 ^ 64`). -/
def get_int (bits : List Bool) (start_bit num_bits : Nat) : Int :=
  if start_bit + num_bits > bits.length ∨ num_bits > 64 then 0
  else if num_bits = 0 then 0
  else if (get_uint bits start_bit num_bits).testBit (num_bits - 1) then
    toInt64 ((get_uint bits start_bit num_bits + (2 ^ 64 - 2 ^ num_bits % 2 ^ 64)) % 2 ^ 64)
  else
    toInt64 (get_uint bits start_bit num_bits)

/-- The 6-bit group to character map of `AISMessage::get_string`
(ais_message_parser.cc lines 122-129): values 0-31 map to `'@'..'_'`
(value + 64), values 32-63 map to `' '..'?'` (the value itself). -/
def mapChar6 (v : Nat) : Char :=
  if v < 32 then Char.ofNat (v + 64) else Char.ofNat v

/-- Drop every trailing occurrence of `t`.  Models the
`find_last_not_of` / `erase` / clear-if-all pattern of
`AISMessage::get_string` (ais_message_parser.cc lines 131-145): keeping
positions `0 .. find_last_not_of t` is exactly dropping the maximal run
of `t` from the tail. -/
def rstrip (t : Char) (s : List Char) : List Char :=
  (s.reverse.dropWhile (fun c => c = t)).reverse

/-- The trailing trim of `AISMessage::get_string`: first trailing `'@'`
characters, then trailing spaces (ais_message_parser.cc lines 131-145). -/
def trimTrailing (s : List Char) : List Char :=
  rstrip ' ' (rstrip '@' s)

/-- `AISMessage::get_string` (ais_message_parser.cc lines 111-149).
Out-of-range requests log and return the empty string; otherwise
`num_chars` 6-bit groups are read, mapped, and the tail trimmed. -/
def get_string (bits : List Bool) (start_bit num_chars : Nat) : List Char :=
  if start_bit + num_chars * 6 > bits.length then []
  else trimTrailing
    ((List.range num_chars).map (fun i => mapChar6 (get_uint bits (start_bit + i * 6) 6)))

/-- The per-character armor arithmetic inlined in the `AISMessage`
constructor (ais_message_parser.cc lines 36-53): `val = c - 48`, then
`val -= 8` when `val > 40`, then push bits `(val >> i) & 1` for
`i = 5 .. 0`.  `val` is a C++ `int` and can be negative or exceed 63 for
invalid characters (the validity check at lines 43-49 has an empty body);
the arithmetic right shift is floor division and `& 1` is the Euclidean
remainder modulo 2. -/
def charBits (c : Char) : List Bool :=
  let v0 : Int := (c.toNat : Int) - 48
  let v : Int := if v0 > 40 then v0 - 8 else v0
  [5, 4, 3, 2, 1, 0].map (fun i => (v.fdiv (2 ^ i)) % 2 = 1)

/-- The bit buffer built by the constructor loop before fill-bit
trimming: six bits per payload character, in order
(ais_message_parser.cc lines 36-54). -/
def rawBits : List Char → List Bool
  | [] => []
  | c :: rest => charBits c ++ rawBits rest

/-- The bit buffer after fill-bit trimming
(ais_message_parser.cc lines 56-60): when `0 < num_fill_bits < 6` and the
buffer holds at least that many bits, the last `num_fill_bits` bits are
popped. -/
def payloadBits (encoded_payload : List Char) (num_fill_bits : Int) : List Bool :=
  if 0 < num_fill_bits ∧ num_fill_bits < 6 ∧
      num_fill_bits.toNat ≤ (rawBits encoded_payload).length then
    (rawBits encoded_payload).take ((rawBits encoded_payload).length - num_fill_bits.toNat)
  else
    rawBits encoded_payload

/-- The message-type computation at the end of the constructor
(ais_message_parser.cc lines 62-67): first 6 bits when at least 6 bits
remain, else the sentinel -1. -/
def mkMessageType (encoded_payload : List Char) (num_fill_bits : Int) : Int :=
  if (payloadBits encoded_payload num_fill_bits).length ≥ 6 then
    (get_uint (payloadBits encoded_payload num_fill_bits) 0 6 : Int)
  else -1

/-- State of a constructed `AISMessage` (ais_message_parser.h lines
39-56): the decoded bit buffer and the extracted message type. -/
structure AISMessage where
  payload_bits : List Bool
  message_type : Int
deriving DecidableEq, Repr

/-- The `AISMessage` constructor (ais_message_parser.cc lines 35-68). -/
def mkAISMessage (encoded_payload : List Char) (num_fill_bits : Int) : AISMessage :=
  { payload_bits := payloadBits encoded_payload num_fill_bits
    message_type := mkMessageType encoded_payload num_fill_bits }

/-- `AISMessage::get_message_type` (ais_message_parser.h line 52). -/
def get_message_type (m : AISMessage) : Int :=
  m.message_type

/-- `AISMessage::decode_6bit_ascii` (ais_message_parser.cc lines
229-249): rejects code points outside `48..87` and `96..119` with -1,
otherwise subtracts 48 and a further 8 when the result is at least 40;
the final defensive range check of the source is kept. -/
def decode_6bit_ascii (c : Char) : Int :=
  let val := c.toNat
  if val < 48 ∨ (val > 87 ∧ val < 96) ∨ val > 119 then -1
  else
    let v1 := val - 48
    let v2 := if v1 ≥ 40 then v1 - 8 else v1
    if v2 > 63 then -1 else (v2 : Int)

/-- Decimal digit characters, most significant first, by repeated
division; `fuel` bounds the recursion depth and is exact whenever
`n < 10 ^ fuel`. -/
def decCharsAux : Nat → Nat → List Char
  | 0, _ => []
  | fuel + 1, n =>
    if n < 10 then [Char.ofNat (48 + n)]
    else decCharsAux fuel (n / 10) ++ [Char.ofNat (48 + n % 10)]

/-- Decimal digit characters of a natural number, most significant
first; models the decimal rendering done by `fmt::format`.  Every value
formatted in this pipeline is a C++ `uint32_t`, so a fuel of 20 renders
all of them (and any `n < 10 ^ 20`) exactly. -/
def decChars (n : Nat) : List Char :=
  decCharsAux 20 n

/-- `fmt::format("{:02}", n)`: decimal, left-padded with zeros to a
minimum width of two. -/
def fmt02 (n : Nat) : List Char :=
  List.replicate (2 - (decChars n).length) '0' ++ decChars n

/-- The call `fmt::format("{:09u}", mmsi_val)` in
`kis_ais_phy::process_ais_json` (phy_ais.cc line 205).  `u` is not a
valid fmt presentation type (the integer presentation types are
`b B c d o x X`), so this call never yields a string: at run time it
throws `fmt::format_error`, which nothing in `process_ais_json` or
`packet_handler` catches (and under compile-time format checking the
line does not compile).  The fallible call is modelled as an `Option`
that is `none` for every argument. -/
def mmsiFormatCall (_v : Nat) : Option (List Char) :=
  none

/-- Modelled from the spec: the intended MMSI formatting that the
failing call at phy_ais.cc line 205 was meant to perform - the code
comment there says "Ensure 9 digits, zero-padded" and the spec requires
the nine-digit zero-padded decimal external key - i.e. decimal,
left-padded with zeros to a minimum width of nine. -/
def mmsiNineDigits (v : Nat) : List Char :=
  List.replicate (9 - (decChars v).length) '0' ++ decChars v

/-- Value of a decimal digit string read left to right, the usual
`10 * acc + digit` accumulation (digit characters only). -/
def digitsVal (s : List Char) : Nat :=
  s.foldl (fun a c => 10 * a + (c.toNat - 48)) 0

/-- The ETA string of `AISMessageType5::parse`
(ais_message_parser.cc lines 208-215): the `"MM-DD HH:MM UTC"` format
when all four components are in range, else the literal `"N/A"`. -/
def etaStrOf (mo d h mi : Nat) : List Char :=
  if 1 ≤ mo ∧ mo ≤ 12 ∧ 1 ≤ d ∧ d ≤ 31 ∧ h ≤ 23 ∧ mi ≤ 59 then
    fmt02 mo ++ ['-'] ++ fmt02 d ++ [' '] ++ fmt02 h ++ [':'] ++ fmt02 mi ++ [' ', 'U', 'T', 'C']
  else
    ['N', '/', 'A']

/-- The fields emitted by `AISMessageType123::parse`
(ais_message_parser.cc lines 155-182).  The JSON values `sog`, `lon`,
`lat` and `cog` are floating-point quotients; the record carries their
exact integer numerators (`/ 10.0`, `/ 600000.0`). -/
structure Type123Record where
  message_type : Int
  repeat_indicator : Nat
  mmsi : Nat
  nav_status : Nat
  rot : Int
  sog10 : Nat
  pos_accuracy : Nat
  lon600000 : Int
  lat600000 : Int
  cog10 : Nat
  true_heading : Nat
  timestamp : Nat
  maneuver_indicator : Nat
  raim_flag : Nat
  radio_status : Nat
deriving DecidableEq, Repr

/-- `AISMessageType123::parse` (ais_message_parser.cc lines 155-182). -/
def parseType123 (m : AISMessage) : Type123Record :=
  { message_type := m.message_type
    repeat_indicator := get_uint m.payload_bits 6 2
    mmsi := get_uint m.payload_bits 8 30
    nav_status := get_uint m.payload_bits 38 4
    rot := get_int m.payload_bits 42 8
    sog10 := get_uint m.payload_bits 50 10
    pos_accuracy := get_uint m.payload_bits 60 1
    lon600000 := get_int m.payload_bits 61 28
    lat600000 := get_int m.payload_bits 89 27
    cog10 := get_uint m.payload_bits 116 12
    true_heading := get_uint m.payload_bits 128 9
    timestamp := get_uint m.payload_bits 137 6
    maneuver_indicator := get_uint m.payload_bits 143 2
    raim_flag := get_uint m.payload_bits 148 1
    radio_status := get_uint m.payload_bits 149 19 }

/-- The fields emitted by `AISMessageType5::parse`
(ais_message_parser.cc lines 188-226); `draught` is carried as its
integer numerator (`/ 10.0`). -/
structure Type5Record where
  message_type : Int
  repeat_indicator : Nat
  mmsi : Nat
  ais_version : Nat
  imo_number : Nat
  callsign : List Char
  vessel_name : List Char
  ship_type : Nat
  dim_to_bow : Nat
  dim_to_stern : Nat
  dim_to_port : Nat
  dim_to_starboard : Nat
  epfd_fix_type : Nat
  eta_month : Nat
  eta_day : Nat
  eta_hour : Nat
  eta_minute : Nat
  eta_str : List Char
  draught10 : Nat
  destination : List Char
  dte : Nat
deriving DecidableEq, Repr

/-- `AISMessageType5::parse` (ais_message_parser.cc lines 188-226). -/
def parseType5 (m : AISMessage) : Type5Record :=
  { message_type := m.message_type
    repeat_indicator := get_uint m.payload_bits 6 2
    mmsi := get_uint m.payload_bits 8 30
    ais_version := get_uint m.payload_bits 38 2
    imo_number := get_uint m.payload_bits 40 30
    callsign := get_string m.payload_bits 70 7
    vessel_name := get_string m.payload_bits 112 20
    ship_type := get_uint m.payload_bits 232 8
    dim_to_bow := get_uint m.payload_bits 240 9
    dim_to_stern := get_uint m.payload_bits 249 9
    dim_to_port := get_uint m.payload_bits 258 6
    dim_to_starboard := get_uint m.payload_bits 264 6
    epfd_fix_type := get_uint m.payload_bits 270 4
    eta_month := get_uint m.payload_bits 274 4
    eta_day := get_uint m.payload_bits 278 5
    eta_hour := get_uint m.payload_bits 283 5
    eta_minute := get_uint m.payload_bits 288 6
    eta_str := etaStrOf (get_uint m.payload_bits 274 4) (get_uint m.payload_bits 278 5)
      (get_uint m.payload_bits 283 5) (get_uint m.payload_bits 288 6)
    draught10 := get_uint m.payload_bits 294 8
    destination := get_string m.payload_bits 302 20
    dte := get_uint m.payload_bits 422 1 }

/-- A decoded record: the tagged result of dispatching on the message
type. -/
inductive AisRecord where
  | pos (r : Type123Record)
  | voyage (r : Type5Record)
deriving DecidableEq, Repr

/-- The payload-decoding tail of `kis_ais_phy::parse_aivdm`
(phy_ais.cc lines 511-555) together with `AISParser::create_ais_message`
(ais_message_parser.cc lines 252-269), after envelope and frame
validation: an empty payload is rejected; the message type is the
decoded first armor character, rejected when `<= 0` or `> 63`; types
1/2/3 build and parse an `AISMessageType123`, type 5 an
`AISMessageType5`; every other type yields no record. -/
def decodePayload (encoded_payload : List Char) (num_fill_bits : Int) : Option AisRecord :=
  match encoded_payload with
  | [] => none
  | c :: _ =>
    let t := decode_6bit_ascii c
    if t ≤ 0 ∨ t > 63 then none
    else if t = 1 ∨ t = 2 ∨ t = 3 then
      some (AisRecord.pos (parseType123 (mkAISMessage encoded_payload num_fill_bits)))
    else if t = 5 then
      some (AisRecord.voyage (parseType5 (mkAISMessage encoded_payload num_fill_bits)))
    else none

/-- The all-zero `mac_addr()` returned by `kis_ais_phy::mmsi_to_mac` on
every failure path (phy_ais.cc lines 96, 104, 107). -/
def zeroMac : List Nat := [0, 0, 0, 0, 0, 0]

/-- `std::stoul` as called on the MMSI string (phy_ais.cc line 101),
modelled for strings that begin with a decimal digit (the only shapes
reaching it in this pipeline): the value of the maximal leading run of
decimal digits, or failure (`std::invalid_argument`) when the string
does not start with a digit. -/
def stoulDec (s : List Char) : Option Nat :=
  if (s.takeWhile (fun c => decide (48 ≤ c.toNat ∧ c.toNat ≤ 57))).isEmpty then none
  else some (digitsVal (s.takeWhile (fun c => decide (48 ≤ c.toNat ∧ c.toNat ≤ 57))))

/-- `kis_ais_phy::mmsi_to_mac` (phy_ais.cc lines 93-123): reject a
string whose length is not 9 or that fails to parse, returning the zero
MAC; otherwise the MAC bytes are `02 41 49` followed by the low three
bytes of the parsed value (stored in a `uint32_t`, hence the
`% 2 ^ 32`). -/
def mmsi_to_mac (mmsi : List Char) : List Nat :=
  if mmsi.length ≠ 9 then zeroMac
  else
    match stoulDec mmsi with
    | none => zeroMac
    | some v0 =>
      [2, 65, 73, v0 % 2 ^ 32 / 2 ^ 16 % 256, v0 % 2 ^ 32 / 2 ^ 8 % 256, v0 % 2 ^ 32 % 256]

/-- Modelled from the spec: the 6-bit ASCII-armor encoder (the inverse
of the decode mapping in §4.1 of the specification; the repository only
contains the decoder).  A group value `0..39` becomes code point
`value + 48`, a group value `40..63` becomes code point `value + 56`. -/
def encodeChar (v : Nat) : Char :=
  if v < 40 then Char.ofNat (v + 48) else Char.ofNat (v + 56)

/-- Split a bit sequence into 6-bit groups, MSB-first values. -/
def groups6 : List Bool → List Nat
  | b1 :: b2 :: b3 :: b4 :: b5 :: b6 :: rest =>
    msbVal [b1, b2, b3, b4, b5, b6] :: groups6 rest
  | l => if l.isEmpty then [] else [msbVal l]

/-- Modelled from the spec: armor-encode a bit sequence, six bits per
character. -/
def encodeArmor (bs : List Bool) : List Char :=
  (groups6 bs).map encodeChar

end AISParser

namespace AISParser

/-! ## Arithmetic facts about the bit readers -/

theorem msbVal_foldl (l : List Bool) (a : Nat) :
    l.foldl (fun x b => 2 * x + b.toNat) a = a * 2 ^ l.length + msbVal l := by
  induction l generalizing a with
  | nil => simp [msbVal]
  | cons b t ih =>
    have hm : msbVal (b :: t) = b.toNat * 2 ^ t.length + msbVal t := by
      simpa [msbVal] using ih b.toNat
    simp only [List.foldl_cons, List.length_cons, hm]
    rw [ih (2 * a + b.toNat), pow_succ]
    ring

theorem msbVal_lt (l : List Bool) : msbVal l < 2 ^ l.length := by
  induction l with
  | nil => simp [msbVal]
  | cons b t ih =>
    have hm : msbVal (b :: t) = b.toNat * 2 ^ t.length + msbVal t := by
      simpa [msbVal] using msbVal_foldl t b.toNat
    have hb : b.toNat * 2 ^ t.length ≤ 2 ^ t.length := by
      have : b.toNat ≤ 1 := by cases b <;> simp
      simpa using Nat.mul_le_mul_right (2 ^ t.length) this
    simp only [hm, List.length_cons, pow_succ]
    omega

theorem msbVal_append (l1 l2 : List Bool) :
    msbVal (l1 ++ l2) = msbVal l1 * 2 ^ l2.length + msbVal l2 := by
  unfold msbVal
  rw [List.foldl_append]
  exact msbVal_foldl l2 _

theorem get_uint_eq (bits : List Bool) (s n : Nat)
    (h1 : s + n ≤ bits.length) (h2 : n ≤ 64) :
    get_uint bits s n = msbVal ((bits.drop s).take n) := by
  unfold get_uint
  rw [if_neg (by omega : ¬(s + n > bits.length ∨ n > 64))]

theorem slice_length (bits : List Bool) (s n : Nat) (h : s + n ≤ bits.length) :
    ((bits.drop s).take n).length = n := by
  simp only [List.length_take, List.length_drop]
  omega

theorem get_uint_lt (bits : List Bool) (s n : Nat) : get_uint bits s n < 2 ^ n := by
  unfold get_uint
  split
  · exact Nat.pos_pow_of_pos n (by norm_num)
  · calc msbVal ((bits.drop s).take n) < 2 ^ ((bits.drop s).take n).length := msbVal_lt _
      _ ≤ 2 ^ n := by
        apply Nat.pow_le_pow_right (by norm_num)
        simp [List.length_take]

theorem testBit_high_iff (u w : Nat) (hw : 1 ≤ w) (hu : u < 2 ^ w) :
    Nat.testBit u (w - 1) = true ↔ 2 ^ (w - 1) ≤ u := by
  have hpow : 2 ^ (w - 1) * 2 = 2 ^ w := by
    rw [← pow_succ]
    congr 1
    omega
  have hpos : 0 < 2 ^ (w - 1) := Nat.pos_pow_of_pos _ (by norm_num)
  have h2 : u / 2 ^ (w - 1) < 2 := Nat.div_lt_of_lt_mul (by omega)
  rw [Nat.testBit_to_div_mod, decide_eq_true_iff]
  rw [Nat.mod_eq_of_lt h2]
  constructor
  · intro h
    have : 1 ≤ u / 2 ^ (w - 1) := by omega
    exact (Nat.one_le_div_iff hpos).mp this
  · intro h
    have h1 : 1 ≤ u / 2 ^ (w - 1) := (Nat.one_le_div_iff hpos).mpr h
    omega

theorem get_int_zero_width (bits : List Bool) (s : Nat) : get_int bits s 0 = 0 := by
  unfold get_int
  split
  · rfl
  · rw [if_pos rfl]

example : get_uint [true, false, true] 0 3 = 5 := by decide
example : get_uint [true, false, true] 1 3 = 0 := by decide
example : get_int [true, false] 0 2 = -2 := by decide
example : charBits '1' = [false, false, false, false, false, true] := by decide
example : (rawBits ['x']).length = 6 := by decide
example : decode_6bit_ascii 'x' = -1 := by decide
example : mkMessageType ['0'] 3 = -1 := by decide
example : mmsi_to_mac ['2', '2', '7', '0', '0', '6', '7', '6', '0'] =
    [2, 65, 73, 135, 217, 40] := by decide
example : mmsiNineDigits 1073741823 =
    ['1', '0', '7', '3', '7', '4', '1', '8', '2', '3'] := by decide
example : trimTrailing ['A', '@', ' ', '@'] = ['A', '@'] := by decide
example : encodeArmor [true, false, true, true, false, false] = ['d'] := by decide
example : decChars 0 = ['0'] := by decide
example : decChars 227006760 = ['2', '2', '7', '0', '0', '6', '7', '6', '0'] := by decide
example : fmt02 7 = ['0', '7'] := by decide
example : digitsVal (mmsiNineDigits 12345) = 12345 := by decide
example : etaStrOf 3 14 7 5 =
    ['0', '3', '-', '1', '4', ' ', '0', '7', ':', '0', '5', ' ', 'U', 'T', 'C'] := by decide
example : etaStrOf 0 14 7 5 = ['N', '/', 'A'] := by decide
example : rawBits (encodeArmor [true, false, true, true, false, false]) =
    [true, false, true, true, false, false] := by decide

end AISParser

namespace AISParser

/-! ## Claim theorems -/

/-- C1 (counterexample): for the single-character payload `"1"` the
type-1 decoder's extractor ranges exceed the 6-bit buffer, yet the
pipeline still produces a record (with the out-of-range fields defaulted
to 0, e.g. `mmsi = 0`) instead of aborting and dropping it. -/
theorem out_of_range_still_yields_record :
    8 + 30 > (payloadBits ['1'] 0).length ∧
    (decodePayload ['1'] 0).isSome = true ∧
    (parseType123 (mkAISMessage ['1'] 0)).mmsi = 0 := by decide

/-- C1 (amended): an extractor whose requested range exceeds the bit
buffer, or whose width exceeds 64 bits, logs and returns the default
value (0 for `get_uint` and `get_int`, the empty string for
`get_string`); the caller keeps decoding, so the record is populated
with defaults rather than dropped. -/
theorem extractors_return_defaults (bits : List Bool) (start num nchars : Nat)
    (h : start + num > bits.length ∨ num > 64)
    (hs : start + nchars * 6 > bits.length) :
    get_uint bits start num = 0 ∧ get_int bits start num = 0 ∧
    get_string bits start nchars = [] := by
  refine ⟨?_, ?_, ?_⟩
  · unfold get_uint
    rw [if_pos h]
  · unfold get_int
    rw [if_pos h]
  · unfold get_string
    rw [if_pos hs]

/-- C1 (witness for the amended theorem). -/
theorem extractors_return_defaults_checks :
    get_uint [] 8 30 = 0 ∧ get_int [] 8 30 = 0 ∧ get_string [] 8 7 = [] :=
  extractors_return_defaults [] 8 30 7 (by decide) (by decide)

/-- C2 (counterexample): `'x'` (code point 120) is outside the armor
alphabet (`decode_6bit_ascii` rejects it), yet the constructor's decode
loop appends six bits for it, not zero. -/
theorem invalid_armor_char_contributes_six_bits :
    decode_6bit_ascii 'x' = -1 ∧ (rawBits ['x']).length = 6 := by decide

/-- C2 (amended): the `AISMessage` constructor appends exactly six bits
for every payload character, valid armor or not (its invalid-character
check has an empty body), and construction always continues; there is no
`strict_armor` mode in the code. -/
theorem every_armor_char_contributes_six_bits (s : List Char) :
    (rawBits s).length = 6 * s.length := by
  induction s with
  | nil => simp [rawBits]
  | cons c t ih =>
    have hc : (charBits c).length = 6 := by simp [charBits]
    simp [rawBits, hc, ih, List.length_cons, Nat.mul_succ]
    omega

/-- C4 (counterexample): `mmsi_to_mac "227006760"` is not
`02:41:49:0D:74:A8` as the spec scenario states. -/
theorem mmsi_to_mac_227006760_not_spec_value :
    mmsi_to_mac ['2', '2', '7', '0', '0', '6', '7', '6', '0'] ≠
      [0x02, 0x41, 0x49, 0x0D, 0x74, 0xA8] := by decide

/-- C4 (amended): `227006760 = 0x0D87D928`, so its low 24 bits are
`0x87D928` and `mmsi_to_mac "227006760"` is `02:41:49:87:D9:28`. -/
theorem mmsi_to_mac_227006760 :
    mmsi_to_mac ['2', '2', '7', '0', '0', '6', '7', '6', '0'] =
      [0x02, 0x41, 0x49, 0x87, 0xD9, 0x28] := by decide

/-- C7: for every bit buffer, in-range start and width `1 ≤ w ≤ 64`,
`get_int` is the two's-complement reinterpretation of `get_uint`: when
the high bit of the field is set, `get_int + 2 ^ w = get_uint`; when it
is clear, `get_int = get_uint`; and a zero-width read returns 0. -/
theorem get_int_twos_complement (bits : List Bool) (start w : Nat)
    (h1 : start + w ≤ bits.length) (h2 : 1 ≤ w) (h3 : w ≤ 64) :
    ((get_uint bits start w).testBit (w - 1) = true →
      get_int bits start w + ((2 ^ w : Nat) : Int) = (get_uint bits start w : Int)) ∧
    ((get_uint bits start w).testBit (w - 1) = false →
      get_int bits start w = (get_uint bits start w : Int)) ∧
    get_int bits start 0 = 0 := by
  have hu : get_uint bits start w < 2 ^ w := get_uint_lt bits start w
  have hw1 : 2 ^ (w - 1) * 2 = 2 ^ w := by
    rw [← pow_succ]
    congr 1
    omega
  have h63 : 2 ^ (w - 1) ≤ 2 ^ 63 := Nat.pow_le_pow_right (by norm_num) (by omega)
  have h6 : (2 : Nat) ^ 64 = 2 ^ 63 * 2 := by norm_num
  refine ⟨?_, ?_, get_int_zero_width bits start⟩
  · intro hbit
    have hge : 2 ^ (w - 1) ≤ get_uint bits start w :=
      (testBit_high_iff _ w h2 hu).mp hbit
    unfold get_int
    rw [if_neg (by omega : ¬(start + w > bits.length ∨ w > 64)),
      if_neg (by omega : ¬(w = 0)), if_pos hbit]
    unfold toInt64
    rcases Nat.lt_or_ge w 64 with hlt | hge64
    · have hpw : 2 ^ w < 2 ^ 64 := Nat.pow_lt_pow_right (by norm_num) hlt
      rw [Nat.mod_eq_of_lt hpw,
        Nat.mod_eq_of_lt (by omega : get_uint bits start w + (2 ^ 64 - 2 ^ w) < 2 ^ 64)]
      rw [if_neg (by omega : ¬(get_uint bits start w + (2 ^ 64 - 2 ^ w) < 2 ^ 63))]
      have hle : 2 ^ w ≤ 2 ^ 64 := le_of_lt hpw
      omega
    · have hw64 : w = 64 := by omega
      subst hw64
      rw [Nat.mod_self, Nat.sub_zero, Nat.add_mod_right, Nat.mod_eq_of_lt hu]
      rw [if_neg (by norm_num at hge ⊢; omega)]
      omega
  · intro hbit
    have hlt : get_uint bits start w < 2 ^ (w - 1) := by
      by_contra hcon
      rw [(testBit_high_iff _ w h2 hu).mpr (le_of_not_lt hcon)] at hbit
      cases hbit
    unfold get_int
    rw [if_neg (by omega : ¬(start + w > bits.length ∨ w > 64)),
      if_neg (by omega : ¬(w = 0)), if_neg (by simp [hbit])]
    unfold toInt64
    rw [if_pos (by omega)]

/-- C7 (witness): the two-bit field `10` read from `[true, false]` has
its high bit set, and `get_int + 2 ^ 2 = get_uint` there. -/
theorem get_int_twos_complement_checks :
    get_int [true, false] 0 2 + ((2 ^ 2 : Nat) : Int) =
      (get_uint [true, false] 0 2 : Int) :=
  (get_int_twos_complement [true, false] 0 2 (by decide) (by decide) (by decide)).1
    (by decide)

/-- C10: whenever the bit buffer holds fewer than 6 bits after fill-bit
trimming, the constructor completes and sets `message_type` to the
sentinel -1, outside the documented `1..63` range, and
`get_message_type` returns it. -/
theorem short_buffer_message_type (p : List Char) (fill : Int)
    (h : (payloadBits p fill).length < 6) :
    get_message_type (mkAISMessage p fill) = -1 ∧
    ¬(1 ≤ get_message_type (mkAISMessage p fill) ∧
      get_message_type (mkAISMessage p fill) ≤ 63) := by
  have key : get_message_type (mkAISMessage p fill) = mkMessageType p fill := rfl
  have hm : mkMessageType p fill = -1 := by
    unfold mkMessageType
    rw [if_neg (by omega)]
  rw [key, hm]
  exact ⟨rfl, by decide⟩

/-- C10 (witness): one armor character with three fill bits leaves a
3-bit buffer and the sentinel message type. -/
theorem short_buffer_message_type_checks :
    get_message_type (mkAISMessage ['0'] 3) = -1 :=
  (short_buffer_message_type ['0'] 3 (by decide)).1

end AISParser

namespace AISParser

/-! ## Decimal rendering of the MMSI -/

theorem digitChar_toNat (d : Nat) (h : d < 10) :
    (Char.ofNat (48 + d)).toNat = 48 + d := by
  interval_cases d <;> decide

theorem decCharsAux_length_le (fuel : Nat) :
    ∀ n k, 1 ≤ k → n < 10 ^ k → k ≤ fuel → (decCharsAux fuel n).length ≤ k := by
  induction fuel with
  | zero => intro n k hk _ hf; omega
  | succ fuel ih =>
    intro n k hk hn hf
    unfold decCharsAux
    split
    · simpa using hk
    · have h10 : ¬ n < 10 := by assumption
      have hk2 : 2 ≤ k := by
        by_contra hcon
        have : k = 1 := by omega
        subst this
        simp at hn
        omega
      have hdiv : n / 10 < 10 ^ (k - 1) := by
        rw [Nat.div_lt_iff_lt_mul (by norm_num)]
        have : 10 ^ (k - 1) * 10 = 10 ^ k := by
          rw [← pow_succ]
          congr 1
          omega
        omega
      have := ih (n / 10) (k - 1) (by omega) hdiv (by omega)
      simp only [List.length_append, List.length_cons, List.length_nil]
      omega

theorem decCharsAux_length_ge (fuel : Nat) :
    ∀ n k, 10 ^ k ≤ n → n < 10 ^ fuel → k + 1 ≤ (decCharsAux fuel n).length := by
  induction fuel with
  | zero =>
    intro n k hk hn
    simp at hn
    have : 1 ≤ 10 ^ k := Nat.one_le_pow _ _ (by norm_num)
    omega
  | succ fuel ih =>
    intro n k hk hn
    unfold decCharsAux
    split
    · have h10 : n < 10 := by assumption
      have hk0 : k = 0 := by
        by_contra hcon
        have : 10 ^ 1 ≤ 10 ^ k := Nat.pow_le_pow_right (by norm_num) (by omega)
        simp at this
        omega
      simp [hk0]
    · have h10 : ¬ n < 10 := by assumption
      rcases Nat.eq_zero_or_pos k with hk0 | hkpos
      · simp only [hk0, List.length_append, List.length_cons, List.length_nil]
        omega
      · have hdivge : 10 ^ (k - 1) ≤ n / 10 := by
          rw [Nat.le_div_iff_mul_le (by norm_num)]
          have : 10 ^ (k - 1) * 10 = 10 ^ k := by
            rw [← pow_succ]
            congr 1
            omega
          omega
        have hdivlt : n / 10 < 10 ^ fuel := by
          rw [Nat.div_lt_iff_lt_mul (by norm_num)]
          have : 10 ^ fuel * 10 = 10 ^ (fuel + 1) := by rw [← pow_succ]
          omega
        have := ih (n / 10) (k - 1) hdivge hdivlt
        simp only [List.length_append, List.length_cons, List.length_nil]
        omega

theorem decCharsAux_foldl (fuel : Nat) :
    ∀ n a, n < 10 ^ fuel →
      List.foldl (fun x c => 10 * x + (c.toNat - 48)) a (decCharsAux fuel n) =
        a * 10 ^ (decCharsAux fuel n).length + n := by
  induction fuel with
  | zero =>
    intro n a hn
    simp at hn
    simp [decCharsAux, hn]
  | succ fuel ih =>
    intro n a hn
    unfold decCharsAux
    split
    · have h10 : n < 10 := by assumption
      simp [digitChar_toNat n h10]
      omega
    · have h10 : ¬ n < 10 := by assumption
      have hdivlt : n / 10 < 10 ^ fuel := by
        rw [Nat.div_lt_iff_lt_mul (by norm_num)]
        have : 10 ^ fuel * 10 = 10 ^ (fuel + 1) := by rw [← pow_succ]
        omega
      rw [List.foldl_append]
      rw [ih (n / 10) a hdivlt]
      have hmod : (Char.ofNat (48 + n % 10)).toNat = 48 + n % 10 :=
        digitChar_toNat (n % 10) (Nat.mod_lt n (by norm_num))
      simp only [List.foldl_cons, List.foldl_nil, hmod, List.length_append,
        List.length_cons, List.length_nil]
      have hdm : 10 * (n / 10) + n % 10 = n := Nat.div_add_mod n 10
      rw [pow_succ]
      ring_nf
      omega

theorem foldl_digit_zeros (m : Nat) :
    List.foldl (fun x c => 10 * x + (c.toNat - 48)) 0 (List.replicate m '0') = 0 := by
  induction m with
  | zero => simp
  | succ m ih => simpa [List.replicate_succ] using ih

theorem mmsiNineDigits_short (v : Nat) (hv : v < 10 ^ 9) :
    (mmsiNineDigits v).length = 9 ∧ digitsVal (mmsiNineDigits v) = v := by
  have hlt20 : v < 10 ^ 20 := lt_of_lt_of_le hv (Nat.pow_le_pow_right (by norm_num) (by norm_num))
  have hle : (decChars v).length ≤ 9 :=
    decCharsAux_length_le 20 v 9 (by norm_num) hv (by norm_num)
  constructor
  · simp only [mmsiNineDigits, List.length_append, List.length_replicate]
    omega
  · unfold digitsVal mmsiNineDigits
    rw [List.foldl_append, foldl_digit_zeros]
    have := decCharsAux_foldl 20 v 0 hlt20
    simpa [decChars] using this

/-- C3 (code bug): the MMSI formatting call never yields a string - the
format specification `{:09u}` is invalid, so `fmt::format` throws
`fmt::format_error` for every field value instead of producing the
nine-digit key - while the intended formatting, documented by the code
comment "Ensure 9 digits, zero-padded" and required by the spec, is the
decimal string of the 30-bit field at offset 8 zero-padded to exactly
nine digits (exact for every value below `10 ^ 9`, which covers every
real nine-digit MMSI), preserving the value. -/
theorem mmsi_format_call_fails (bits : List Bool) :
    mmsiFormatCall (get_uint bits 8 30) = none ∧
    (get_uint bits 8 30 < 10 ^ 9 →
      (mmsiNineDigits (get_uint bits 8 30)).length = 9 ∧
      digitsVal (mmsiNineDigits (get_uint bits 8 30)) = get_uint bits 8 30) := by
  refine ⟨rfl, ?_⟩
  intro hv
  exact mmsiNineDigits_short _ hv

/-- C3 (witness): at the empty buffer the field reads 0, the formatting
call still produces no string, and the intended formatting is the
nine-zero string of value 0. -/
theorem mmsi_format_call_fails_checks :
    mmsiFormatCall (get_uint [] 8 30) = none ∧
    (mmsiNineDigits (get_uint [] 8 30)).length = 9 ∧
    digitsVal (mmsiNineDigits (get_uint [] 8 30)) = get_uint [] 8 30 :=
  ⟨(mmsi_format_call_fails []).1, (mmsi_format_call_fails []).2 (by decide)⟩

/-! ## The MMSI to MAC formula -/

theorem takeWhile_all (p : Char → Bool) :
    ∀ l : List Char, (∀ c ∈ l, p c = true) → l.takeWhile p = l := by
  intro l h
  induction l with
  | nil => rfl
  | cons c t ih =>
    rw [List.takeWhile_cons, h c (by simp)]
    simp [ih (fun x hx => h x (by simp [hx]))]

theorem digitsVal_foldl_lt :
    ∀ (l : List Char) (a : Nat), (∀ c ∈ l, c.toNat - 48 < 10) →
      List.foldl (fun x c => 10 * x + (c.toNat - 48)) a l < (a + 1) * 10 ^ l.length := by
  intro l
  induction l with
  | nil => intro a _; simp
  | cons c t ih =>
    intro a h
    have hc : c.toNat - 48 < 10 := h c (by simp)
    have ht := ih (10 * a + (c.toNat - 48)) (fun x hx => h x (by simp [hx]))
    simp only [List.foldl_cons, List.length_cons]
    calc List.foldl (fun x c => 10 * x + (c.toNat - 48)) (10 * a + (c.toNat - 48)) t
        < (10 * a + (c.toNat - 48) + 1) * 10 ^ t.length := ht
      _ ≤ ((a + 1) * 10) * 10 ^ t.length := by
          apply Nat.mul_le_mul_right
          omega
      _ = (a + 1) * 10 ^ (t.length + 1) := by ring

/-- C5: for every string of exactly nine decimal digits with value `v`,
`mmsi_to_mac` returns the MAC whose bytes are
`[0x02, 0x41, 0x49, (v >> 16) & 0xFF, (v >> 8) & 0xFF, v & 0xFF]`; the
mapping is a pure function of the string (hence deterministic) and its
first three bytes are always `02:41:49`. -/
theorem mmsi_to_mac_formula (s : List Char) (h9 : s.length = 9)
    (hd : ∀ c ∈ s, 48 ≤ c.toNat ∧ c.toNat ≤ 57) :
    mmsi_to_mac s =
      [0x02, 0x41, 0x49, digitsVal s / 2 ^ 16 % 256, digitsVal s / 2 ^ 8 % 256,
        digitsVal s % 256] ∧
    (mmsi_to_mac s).take 3 = [0x02, 0x41, 0x49] := by
  have htw : s.takeWhile (fun c => decide (48 ≤ c.toNat ∧ c.toNat ≤ 57)) = s := by
    apply takeWhile_all
    intro c hc
    simpa using hd c hc
  have hne : ¬ (s.takeWhile (fun c => decide (48 ≤ c.toNat ∧ c.toNat ≤ 57))).isEmpty = true := by
    rw [htw]
    cases s with
    | nil => simp at h9
    | cons c t => simp
  have hstoul : stoulDec s = some (digitsVal s) := by
    unfold stoulDec
    rw [if_neg hne, htw]
  have hlt : digitsVal s < 10 ^ 9 := by
    have := digitsVal_foldl_lt s 0 (fun c hc => by have := hd c hc; omega)
    simpa [digitsVal, h9] using this
  have hmod : digitsVal s % 2 ^ 32 = digitsVal s := by
    apply Nat.mod_eq_of_lt
    calc digitsVal s < 10 ^ 9 := hlt
      _ < 2 ^ 32 := by norm_num
  have hmac : mmsi_to_mac s =
      [0x02, 0x41, 0x49, digitsVal s / 2 ^ 16 % 256, digitsVal s / 2 ^ 8 % 256,
        digitsVal s % 256] := by
    have hlt4 : digitsVal s < 4294967296 := by
      have h10 : (10 : Nat) ^ 9 = 1000000000 := by norm_num
      omega
    unfold mmsi_to_mac
    rw [if_neg (by omega), hstoul]
    simp
    omega
  refine ⟨hmac, ?_⟩
  rw [hmac]
  rfl

/-- C5 (witness): the all-zeros MMSI. -/
theorem mmsi_to_mac_formula_checks :
    mmsi_to_mac (List.replicate 9 '0') =
      [0x02, 0x41, 0x49, digitsVal (List.replicate 9 '0') / 2 ^ 16 % 256,
        digitsVal (List.replicate 9 '0') / 2 ^ 8 % 256,
        digitsVal (List.replicate 9 '0') % 256] ∧
    (mmsi_to_mac (List.replicate 9 '0')).take 3 = [0x02, 0x41, 0x49] :=
  mmsi_to_mac_formula (List.replicate 9 '0') (by decide) (by decide)

end AISParser

namespace AISParser

/-! ## Trailing trim of armored strings -/

theorem takeWhile_eq_replicate (t : Char) :
    ∀ l : List Char, ∃ n, l.takeWhile (fun c => c = t) = List.replicate n t := by
  intro l
  induction l with
  | nil => exact ⟨0, rfl⟩
  | cons c cs ih =>
    by_cases hc : c = t
    · obtain ⟨n, hn⟩ := ih
      refine ⟨n + 1, ?_⟩
      rw [List.takeWhile_cons]
      simp [hc, hn, List.replicate_succ]
    · refine ⟨0, ?_⟩
      rw [List.takeWhile_cons]
      simp [hc]

theorem rstrip_decomp (t : Char) (s : List Char) :
    ∃ n, s = rstrip t s ++ List.replicate n t := by
  obtain ⟨n, hn⟩ := takeWhile_eq_replicate t s.reverse
  refine ⟨n, ?_⟩
  unfold rstrip
  conv_lhs => rw [← s.reverse_reverse,
    ← List.takeWhile_append_dropWhile (fun c => c = t) s.reverse]
  rw [List.reverse_append, hn, List.reverse_replicate]

theorem dropWhile_head_ne (t : Char) :
    ∀ l : List Char, (l.dropWhile (fun c => c = t)).head? ≠ some t := by
  intro l
  induction l with
  | nil => simp
  | cons c cs ih =>
    rw [List.dropWhile_cons]
    by_cases hc : c = t
    · simpa [hc] using ih
    · simp [hc]

theorem rstrip_getLast_ne (t : Char) (s : List Char) :
    (rstrip t s).getLast? ≠ some t := by
  unfold rstrip
  rw [List.getLast?_reverse]
  exact dropWhile_head_ne t s.reverse

theorem rstrip_eq_self (t : Char) (s : List Char) (h : s.getLast? ≠ some t) :
    rstrip t s = s := by
  unfold rstrip
  rw [← List.head?_reverse] at h
  cases hrev : s.reverse with
  | nil =>
    have : s = [] := by simpa using congrArg List.reverse hrev
    simp [this]
  | cons c cs =>
    rw [hrev] at h
    simp only [List.head?_cons, ne_eq, Option.some.injEq] at h
    rw [List.dropWhile_cons, if_neg (by simp [h]), ← hrev, List.reverse_reverse]

/-- C8 (counterexample): the 24-bit field with 6-bit groups `1, 0, 32, 0`
maps to `"A@ @"`, which `get_string` trims to `"A@"` — an output of the
trim — yet trimming `"A@"` again yields `"A"`: the trim operation is not
idempotent (the space trim exposed a trailing `'@'`).  The all-zero
groups case also shows an empty result is permitted. -/
theorem trim_not_idempotent :
    get_string [false, false, false, false, false, true,
      false, false, false, false, false, false,
      true, false, false, false, false, false,
      false, false, false, false, false, false] 0 4 = ['A', '@'] ∧
    trimTrailing ['A', '@'] ≠ ['A', '@'] ∧
    get_string (List.replicate 24 false) 0 4 = [] := by decide

/-- C8 (amended): armored-string extraction trims exactly the trailing
`'@'` characters and then the trailing spaces (never interior ones): the
input is the trimmed output followed by the removed spaces and then the
removed `'@'` run, the result never ends in a space, and the result may
be empty; the trim is idempotent only on outputs that do not end in
`'@'` (removing trailing spaces can expose a trailing `'@'`, which a
second trim would also remove). -/
theorem trim_trailing_exact (s : List Char) :
    (∃ m n, s = trimTrailing s ++ (List.replicate m ' ' ++ List.replicate n '@')) ∧
    (trimTrailing s).getLast? ≠ some ' ' ∧
    ((trimTrailing s).getLast? ≠ some '@' →
      trimTrailing (trimTrailing s) = trimTrailing s) := by
  refine ⟨?_, ?_, ?_⟩
  · obtain ⟨n, hn⟩ := rstrip_decomp '@' s
    obtain ⟨m, hm⟩ := rstrip_decomp ' ' (rstrip '@' s)
    refine ⟨m, n, ?_⟩
    unfold trimTrailing
    rw [← List.append_assoc, ← hm, ← hn]
  · exact rstrip_getLast_ne ' ' (rstrip '@' s)
  · intro h
    have h1 : rstrip '@' (trimTrailing s) = trimTrailing s := rstrip_eq_self '@' _ h
    have h2 : rstrip ' ' (trimTrailing s) = trimTrailing s :=
      rstrip_eq_self ' ' _ (rstrip_getLast_ne ' ' (rstrip '@' s))
    show rstrip ' ' (rstrip '@' (trimTrailing s)) = trimTrailing s
    rw [h1, h2]

/-- C8 (witness for the amended theorem): `"B "` trims to `"B"`, which
does not end in `'@'`, and re-trimming leaves it unchanged. -/
theorem trim_trailing_exact_checks :
    trimTrailing (trimTrailing ['B', ' ']) = trimTrailing ['B', ' '] :=
  (trim_trailing_exact ['B', ' ']).2.2 (by decide)

end AISParser

namespace AISParser

/-! ## ETA formatting -/

theorem decCharsAux_ne_nil (fuel n : Nat) (h : 0 < fuel) : decCharsAux fuel n ≠ [] := by
  cases fuel with
  | zero => omega
  | succ fuel =>
    unfold decCharsAux
    split
    · simp
    · simp

theorem fmt02_length (n : Nat) (h : n < 100) : (fmt02 n).length = 2 := by
  have h2 : n < 10 ^ 2 := by
    have : (10 : Nat) ^ 2 = 100 := by norm_num
    omega
  have hle : (decChars n).length ≤ 2 :=
    decCharsAux_length_le 20 n 2 (by norm_num) h2 (by norm_num)
  have hge : 1 ≤ (decChars n).length := by
    have := decCharsAux_ne_nil 20 n (by norm_num)
    have : decChars n ≠ [] := this
    cases hc : decChars n with
    | nil => exact absurd hc this
    | cons c cs => simp [hc]
  simp only [fmt02, List.length_append, List.length_replicate]
  omega

/-- C9: the type-5 decoder carries the four raw ETA components read at
offsets 274/278/283/288, and emits `eta_str` as `"MM-DD HH:MM UTC"`
(each component exactly two zero-padded digits, 15 characters in all)
exactly when `eta_month ∈ 1..12`, `eta_day ∈ 1..31`, `eta_hour ≤ 23`
and `eta_minute ≤ 59`; otherwise `eta_str` is the literal `"N/A"`. -/
theorem eta_formatting (m : AISMessage) :
    (parseType5 m).eta_month = get_uint m.payload_bits 274 4 ∧
    (parseType5 m).eta_day = get_uint m.payload_bits 278 5 ∧
    (parseType5 m).eta_hour = get_uint m.payload_bits 283 5 ∧
    (parseType5 m).eta_minute = get_uint m.payload_bits 288 6 ∧
    ((1 ≤ (parseType5 m).eta_month ∧ (parseType5 m).eta_month ≤ 12 ∧
      1 ≤ (parseType5 m).eta_day ∧ (parseType5 m).eta_day ≤ 31 ∧
      (parseType5 m).eta_hour ≤ 23 ∧ (parseType5 m).eta_minute ≤ 59) →
      (parseType5 m).eta_str =
        fmt02 ((parseType5 m).eta_month) ++ ['-'] ++ fmt02 ((parseType5 m).eta_day) ++
          [' '] ++ fmt02 ((parseType5 m).eta_hour) ++ [':'] ++
          fmt02 ((parseType5 m).eta_minute) ++ [' ', 'U', 'T', 'C'] ∧
      (fmt02 ((parseType5 m).eta_month)).length = 2 ∧
      (fmt02 ((parseType5 m).eta_day)).length = 2 ∧
      (fmt02 ((parseType5 m).eta_hour)).length = 2 ∧
      (fmt02 ((parseType5 m).eta_minute)).length = 2 ∧
      ((parseType5 m).eta_str).length = 15) ∧
    (¬(1 ≤ (parseType5 m).eta_month ∧ (parseType5 m).eta_month ≤ 12 ∧
        1 ≤ (parseType5 m).eta_day ∧ (parseType5 m).eta_day ≤ 31 ∧
        (parseType5 m).eta_hour ≤ 23 ∧ (parseType5 m).eta_minute ≤ 59) →
      (parseType5 m).eta_str = ['N', '/', 'A']) := by
  refine ⟨rfl, rfl, rfl, rfl, ?_, ?_⟩
  · intro hcond
    have hstr : (parseType5 m).eta_str =
        etaStrOf ((parseType5 m).eta_month) ((parseType5 m).eta_day)
          ((parseType5 m).eta_hour) ((parseType5 m).eta_minute) := rfl
    have hfmt : etaStrOf ((parseType5 m).eta_month) ((parseType5 m).eta_day)
        ((parseType5 m).eta_hour) ((parseType5 m).eta_minute) =
        fmt02 ((parseType5 m).eta_month) ++ ['-'] ++ fmt02 ((parseType5 m).eta_day) ++
          [' '] ++ fmt02 ((parseType5 m).eta_hour) ++ [':'] ++
          fmt02 ((parseType5 m).eta_minute) ++ [' ', 'U', 'T', 'C'] := by
      unfold etaStrOf
      rw [if_pos hcond]
    have l1 : (fmt02 ((parseType5 m).eta_month)).length = 2 := fmt02_length _ (by omega)
    have l2 : (fmt02 ((parseType5 m).eta_day)).length = 2 := fmt02_length _ (by omega)
    have l3 : (fmt02 ((parseType5 m).eta_hour)).length = 2 := fmt02_length _ (by omega)
    have l4 : (fmt02 ((parseType5 m).eta_minute)).length = 2 := fmt02_length _ (by omega)
    refine ⟨by rw [hstr, hfmt], l1, l2, l3, l4, ?_⟩
    rw [hstr, hfmt]
    simp only [List.length_append, l1, l2, l3, l4, List.length_cons, List.length_nil]
  · intro hcond
    have hstr : (parseType5 m).eta_str =
        etaStrOf ((parseType5 m).eta_month) ((parseType5 m).eta_day)
          ((parseType5 m).eta_hour) ((parseType5 m).eta_minute) := rfl
    rw [hstr]
    unfold etaStrOf
    rw [if_neg hcond]

/-- C9 (witness): the empty buffer gives all-zero components and the
literal `"N/A"`. -/
theorem eta_formatting_checks :
    (parseType5 (mkAISMessage [] 0)).eta_str = ['N', '/', 'A'] :=
  (eta_formatting (mkAISMessage [] 0)).2.2.2.2.2 (by decide)

end AISParser

namespace AISParser

/-! ## Armor round trip -/

theorem charBits_encode_group :
    ∀ a b c d e f : Bool,
      charBits (encodeChar (msbVal [a, b, c, d, e, f])) = [a, b, c, d, e, f] := by decide

theorem six_cons (k : Nat) (bs : List Bool) (h : bs.length = 6 * (k + 1)) :
    ∃ a b c d e f rest, bs = a :: b :: c :: d :: e :: f :: rest ∧ rest.length = 6 * k := by
  rcases bs with _ | ⟨a, bs⟩
  · simp only [List.length_nil] at h
    omega
  rcases bs with _ | ⟨b, bs⟩
  · simp only [List.length_cons, List.length_nil] at h
    omega
  rcases bs with _ | ⟨c, bs⟩
  · simp only [List.length_cons, List.length_nil] at h
    omega
  rcases bs with _ | ⟨d, bs⟩
  · simp only [List.length_cons, List.length_nil] at h
    omega
  rcases bs with _ | ⟨e, bs⟩
  · simp only [List.length_cons, List.length_nil] at h
    omega
  rcases bs with _ | ⟨f, bs⟩
  · simp only [List.length_cons, List.length_nil] at h
    omega
  refine ⟨a, b, c, d, e, f, bs, rfl, ?_⟩
  simp only [List.length_cons] at h
  omega

theorem rawBits_encodeArmor (k : Nat) :
    ∀ bs : List Bool, bs.length = 6 * k → rawBits (encodeArmor bs) = bs := by
  induction k with
  | zero =>
    intro bs h
    have hnil : bs = [] := List.length_eq_zero.mp (by omega)
    subst hnil
    rfl
  | succ k ih =>
    intro bs h
    obtain ⟨a, b, c, d, e, f, rest, rfl, hrest⟩ := six_cons k bs h
    have harm : encodeArmor (a :: b :: c :: d :: e :: f :: rest) =
        encodeChar (msbVal [a, b, c, d, e, f]) :: encodeArmor rest := by
      unfold encodeArmor
      rw [groups6]
      simp
    rw [harm]
    show charBits (encodeChar (msbVal [a, b, c, d, e, f])) ++ rawBits (encodeArmor rest) =
      a :: b :: c :: d :: e :: f :: rest
    rw [charBits_encode_group, ih rest hrest]
    rfl

theorem get_uint_full (bits : List Bool) (h : bits.length ≤ 64) :
    get_uint bits 0 bits.length = msbVal bits := by
  rw [get_uint_eq bits 0 bits.length (by omega) h]
  simp

theorem payloadBits_zero_fill (s : List Char) : payloadBits s 0 = rawBits s := by
  unfold payloadBits
  rw [if_neg]
  simp

/-- C6 (counterexample): a 66-bit sequence (a multiple of 6) with its
leading bit set armors to eleven characters, but reading back
`uint(0, 66)` hits the `num_bits > 64` guard and returns 0, not the
original value. -/
theorem armor_round_trip_fails_beyond_64 :
    (true :: List.replicate 65 false).length % 6 = 0 ∧
    get_uint (payloadBits (encodeArmor (true :: List.replicate 65 false)) 0) 0
      (true :: List.replicate 65 false).length = 0 ∧
    msbVal (true :: List.replicate 65 false) ≠ 0 := by decide

/-- C6 (amended): for any bit sequence whose length is a multiple of 6
and at most 64 bits, building the bit buffer from its 6-bit ASCII-armor
encoding with zero fill bits and reading `uint(0, len)` reconstructs the
original integer interpreted MSB-first (for longer sequences the reader
refuses widths above 64 and returns 0). -/
theorem armor_round_trip (bs : List Bool) (h6 : bs.length % 6 = 0)
    (h64 : bs.length ≤ 64) :
    get_uint (payloadBits (encodeArmor bs) 0) 0 bs.length = msbVal bs := by
  obtain ⟨k, hk⟩ : ∃ k, bs.length = 6 * k := ⟨bs.length / 6, by omega⟩
  rw [payloadBits_zero_fill, rawBits_encodeArmor k bs hk]
  exact get_uint_full bs h64

/-- C6 (witness for the amended theorem): the six-bit sequence `101100`
round-trips through its armor character to the value 44. -/
theorem armor_round_trip_checks :
    get_uint (payloadBits (encodeArmor [true, false, true, true, false, false]) 0) 0
      [true, false, true, true, false, false].length =
      msbVal [true, false, true, true, false, false] :=
  armor_round_trip [true, false, true, true, false, false] (by decide) (by decide)

end AISParser
